import Mathlib

/-!
Verification of the hashomatic repository: a shallow embedding of its digest
engine (`lazyhash`, src/hashomatic/lazyhash.py) and canonicalizer
(`crystallize`, src/hashomatic/crystal.py), together with proofs settling the
frozen claims about the natural-language specification.

The digest engine is built on MD5 (`hashf = md5` in lazyhash.py); we implement
MD5 executably over byte lists so that concrete digests computed here can be
checked against the hexdigest values recorded in the repository's doctests.
-/

set_option maxRecDepth 100000

namespace Hashomatic

/-- Rotate a 32-bit word left by `s` bits (words are `Nat`s reduced mod 2^32). -/
def rotl32 (x s : Nat) : Nat :=
  ((x <<< s) ||| (x >>> (32 - s))) % 4294967296

/-- The 64 MD5 round constants `K[i] = floor(2^32 * abs(sin(i+1)))`. -/
def mdK : List Nat :=
  [0xd76aa478, 0xe8c7b756, 0x242070db, 0xc1bdceee,
   0xf57c0faf, 0x4787c62a, 0xa8304613, 0xfd469501,
   0x698098d8, 0x8b44f7af, 0xffff5bb1, 0x895cd7be,
   0x6b901122, 0xfd987193, 0xa679438e, 0x49b40821,
   0xf61e2562, 0xc040b340, 0x265e5a51, 0xe9b6c7aa,
   0xd62f105d, 0x02441453, 0xd8a1e681, 0xe7d3fbc8,
   0x21e1cde6, 0xc33707d6, 0xf4d50d87, 0x455a14ed,
   0xa9e3e905, 0xfcefa3f8, 0x676f02d9, 0x8d2a4c8a,
   0xfffa3942, 0x8771f681, 0x6d9d6122, 0xfde5380c,
   0xa4beea44, 0x4bdecfa9, 0xf6bb4b60, 0xbebfbc70,
   0x289b7ec6, 0xeaa127fa, 0xd4ef3085, 0x04881d05,
   0xd9d4d039, 0xe6db99e5, 0x1fa27cf8, 0xc4ac5665,
   0xf4292244, 0x432aff97, 0xab9423a7, 0xfc93a039,
   0x655b59c3, 0x8f0ccc92, 0xffeff47d, 0x85845dd1,
   0x6fa87e4f, 0xfe2ce6e0, 0xa3014314, 0x4e0811a1,
   0xf7537e82, 0xbd3af235, 0x2ad7d2bb, 0xeb86d391]

/-- The per-round left-rotation amounts of MD5. -/
def mdS : List Nat :=
  [7, 12, 17, 22, 7, 12, 17, 22, 7, 12, 17, 22, 7, 12, 17, 22,
   5, 9, 14, 20, 5, 9, 14, 20, 5, 9, 14, 20, 5, 9, 14, 20,
   4, 11, 16, 23, 4, 11, 16, 23, 4, 11, 16, 23, 4, 11, 16, 23,
   6, 10, 15, 21, 6, 10, 15, 21, 6, 10, 15, 21, 6, 10, 15, 21]

/-- One MD5 operation (round `i` of 64) on the state `(a, b, c, d)`, reading
the 16 message words `M`. -/
def mdStep (M : List Nat) (i : Nat) : Nat × Nat × Nat × Nat → Nat × Nat × Nat × Nat
  | (a, b, c, d) =>
    let fg : Nat × Nat :=
      if i < 16 then ((b &&& c) ||| ((b ^^^ 0xffffffff) &&& d), i)
      else if i < 32 then ((d &&& b) ||| ((d ^^^ 0xffffffff) &&& c), (5 * i + 1) % 16)
      else if i < 48 then (b ^^^ c ^^^ d, (3 * i + 5) % 16)
      else (c ^^^ (b ||| (d ^^^ 0xffffffff)), (7 * i) % 16)
    let tmp := (fg.1 + a + mdK.getD i 0 + M.getD fg.2 0) % 4294967296
    let nb := (b + rotl32 tmp (mdS.getD i 0)) % 4294967296
    (d, nb, b, c)

/-- Run MD5 rounds `i, i+1, ...` bounded by the structural fuel. -/
def mdLoop (M : List Nat) : Nat → Nat → Nat × Nat × Nat × Nat → Nat × Nat × Nat × Nat
  | 0, _, st => st
  | fuel + 1, i, st => mdLoop M fuel (i + 1) (mdStep M i st)

/-- Pack the first `4*k` bytes of a little-endian byte list into `k` 32-bit words. -/
def group4 : Nat → List Nat → List Nat
  | 0, _ => []
  | k + 1, l =>
    (l.getD 0 0 + 256 * l.getD 1 0 + 65536 * l.getD 2 0 + 16777216 * l.getD 3 0)
      :: group4 k (l.drop 4)

/-- Little-endian byte rendering of `n`, `k` bytes wide. -/
def leBytes : Nat → Nat → List Nat
  | 0, _ => []
  | k + 1, n => (n % 256) :: leBytes k (n / 256)

/-- MD5 padding: append the `0x80` byte, zero bytes up to 56 mod 64, then the
original bit length as a little-endian 64-bit quantity. -/
def md5Pad (msg : List Nat) : List Nat :=
  msg ++ 0x80 :: List.replicate ((119 - msg.length % 64) % 64) 0
      ++ leBytes 8 ((msg.length * 8) % 18446744073709551616)

/-- Consume the padded message 64-byte chunk by chunk (fuel-bounded so the
recursion is structural and kernel-reducible). -/
def mdChunks : Nat → List Nat → Nat × Nat × Nat × Nat → Nat × Nat × Nat × Nat
  | 0, _, st => st
  | _ + 1, [], st => st
  | fuel + 1, l, (a0, b0, c0, d0) =>
    let M := group4 16 l
    let r := mdLoop M 64 0 (a0, b0, c0, d0)
    mdChunks fuel (l.drop 64)
      ((a0 + r.1) % 4294967296, (b0 + r.2.1) % 4294967296,
       (c0 + r.2.2.1) % 4294967296, (d0 + r.2.2.2) % 4294967296)

/-- MD5 of a byte list, as the 16-byte digest list. -/
def md5 (msg : List Nat) : List Nat :=
  let p := md5Pad msg
  let st := mdChunks (p.length) p (0x67452301, 0xefcdab89, 0x98badcfe, 0x10325476)
  leBytes 4 st.1 ++ leBytes 4 st.2.1 ++ leBytes 4 st.2.2.1 ++ leBytes 4 st.2.2.2

/-- ASCII code of the lowercase hex digit for `d < 16`. -/
def hexDigit (d : Nat) : Nat := if d < 10 then 48 + d else 87 + d

/-- ASCII codes of the lowercase hex rendering of a byte list (the `hexdigest`
string of a digest, as a byte/code list). -/
def hexAscii (bs : List Nat) : List Nat :=
  match bs with
  | [] => []
  | b :: rest => hexDigit (b / 16) :: hexDigit (b % 16) :: hexAscii rest

/-- Code points of a Lean string (Python `str` comparison is by code point). -/
def strCodes (s : String) : List Nat := s.data.map Char.toNat

/-- UTF-8 encoding of one character. -/
def utf8Char (c : Char) : List Nat :=
  let n := c.toNat
  if n < 128 then [n]
  else if n < 2048 then [192 + n / 64, 128 + n % 64]
  else if n < 65536 then [224 + n / 4096, 128 + (n / 64) % 64, 128 + n % 64]
  else [240 + n / 262144, 128 + (n / 4096) % 64, 128 + (n / 64) % 64, 128 + n % 64]

/-- UTF-8 bytes of a string: the embedding of Python `s.encode()`. -/
def strBytes (s : String) : List Nat := (s.data.map utf8Char).flatten

/-! ## Byte-lexicographic comparison

Python compares `bytes` (and, code point by code point, `str`) by dictionary
order; these executable comparisons embed that. -/

/-- Strict dictionary order on byte lists (Python `a < b` on `bytes`/`str`). -/
def lexLt : List Nat → List Nat → Bool
  | [], [] => false
  | [], _ :: _ => true
  | _ :: _, [] => false
  | a :: as, b :: bs => if a < b then true else if b < a then false else lexLt as bs

/-- Non-strict dictionary order on byte lists (Python `a <= b`). -/
def lexLe : List Nat → List Nat → Bool
  | [], _ => true
  | _ :: _, [] => false
  | a :: as, b :: bs => if a < b then true else if b < a then false else lexLe as bs

/-- The `Prop` form of `lexLe`, used as the sorting relation. -/
def bytesLeR (a b : List Nat) : Prop := lexLe a b = true

instance : DecidableRel bytesLeR := fun a b => inferInstanceAs (Decidable (lexLe a b = true))

/-! ## The value model

`Value` embeds the Python values the digest engine and canonicalizer handle:
the JSON-primitive scalars, `bytes`, `list`/`tuple`/`set`/`dict`.  A float is
embedded as its exact rational value, a fraction `num / den` (every binary64
float is such a fraction), together with its Python `str()` rendering (the
digest engine only consumes the rendering; comparisons consume the value).  A set or dict carries the iteration order of the underlying hash
container as a list; the digest engine must erase that order.  NaN and the
infinities are outside this model (the spec documents them as an accepted
limitation of opaque paths only). -/

inductive Value where
  | vnone
  | vbool (b : Bool)
  | vint (n : Int)
  | vfloat (num : Int) (den : Nat) (s : String)
  | vstr (s : String)
  | vbytes (bs : List Nat)
  | vtuple (xs : List Value)
  | vlist (xs : List Value)
  | vset (xs : List Value)
  | vdict (es : List (Value × Value))

mutual

/-- Structural (boolean) equality on `Value`; basis for `DecidableEq`. -/
def beqV : Value → Value → Bool
  | .vnone, .vnone => true
  | .vbool a, .vbool b => a == b
  | .vint a, .vint b => a == b
  | .vfloat n d s, .vfloat n2 d2 t => n == n2 && d == d2 && s == t
  | .vstr a, .vstr b => a == b
  | .vbytes a, .vbytes b => a == b
  | .vtuple xs, .vtuple ys => beqL xs ys
  | .vlist xs, .vlist ys => beqL xs ys
  | .vset xs, .vset ys => beqL xs ys
  | .vdict es, .vdict fs => beqE es fs
  | _, _ => false

def beqL : List Value → List Value → Bool
  | [], [] => true
  | x :: xs, y :: ys => beqV x y && beqL xs ys
  | _, _ => false

def beqE : List (Value × Value) → List (Value × Value) → Bool
  | [], [] => true
  | (k, v) :: es, (k2, v2) :: fs => beqV k k2 && beqV v v2 && beqE es fs
  | _, _ => false

end

mutual

theorem beqV_iff : ∀ a b, beqV a b = true ↔ a = b
  | a, b => by
    cases a <;> cases b <;> simp [beqV, and_assoc]
    case vtuple.vtuple xs ys => exact beqL_iff xs ys
    case vlist.vlist xs ys => exact beqL_iff xs ys
    case vset.vset xs ys => exact beqL_iff xs ys
    case vdict.vdict es fs => exact beqE_iff es fs

theorem beqL_iff : ∀ xs ys, beqL xs ys = true ↔ xs = ys
  | [], [] => by simp [beqL]
  | [], _ :: _ => by simp [beqL]
  | _ :: _, [] => by simp [beqL]
  | x :: xs, y :: ys => by simp [beqL, beqV_iff x y, beqL_iff xs ys]

theorem beqE_iff : ∀ es fs, beqE es fs = true ↔ es = fs
  | [], [] => by simp [beqE]
  | [], _ :: _ => by simp [beqE]
  | _ :: _, [] => by simp [beqE]
  | (k, v) :: es, (k2, v2) :: fs => by
    simp [beqE, beqV_iff k k2, beqV_iff v v2, beqE_iff es fs, and_assoc]

end

instance : DecidableEq Value := fun a b => decidable_of_iff _ (beqV_iff a b)

/-! ## The digest engine (`lazyhash`)

`Hasher` wraps a streaming md5: its whole observable state is the sequence of
bytes fed so far, so we model a `Hasher` as that byte stream (`List Nat`);
`digest()` is `md5` of the stream, `update` is append, and `msg += h` appends
`h`'s digest (`Hasher.__add__` calls `self.update(other.digest())`). -/

/-- Python's single-quoted apostrophe character, for `str(type)` renderings. -/
def sq : String := String.singleton (Char.ofNat 39)

/-- Bytes of `stringer(type(d))`, i.e. `"type(<class 'name'>)"`: the seed each
container hasher starts from (`Hasher(stringer(type(d)).encode())`). -/
def classTag (name : String) : List Nat :=
  strBytes ("type(<class " ++ sq ++ name ++ sq ++ ">)")

/-- Python `str(int)`. -/
def intRepr (n : Int) : String := toString n

/-- Python `str(bool)`. -/
def boolRepr (b : Bool) : String := if b then "True" else "False"

/-- Insert `(key, value digest)` into the association list the way a Python
dict comprehension does: an existing key keeps its position but its stored
value is overwritten; a new key is appended. -/
def upsert (p : List Nat × List Nat) : List (List Nat × List Nat) → List (List Nat × List Nat)
  | [] => [p]
  | q :: rest => if q.1 = p.1 then (q.1, p.2) :: rest else q :: upsert p rest

/-- The dict comprehension `keyhashes = \x7bstr(lazyhash(k)): k for k in d\x7d`
collapsed onto value digests: entries keyed by the hex rendering of the key
digest, later duplicates overwriting earlier ones (a real dict has distinct
keys, so the value digest paired with a surviving key is that key's value). -/
def dedupK (l : List (List Nat × List Nat)) : List (List Nat × List Nat) :=
  l.foldl (fun acc p => upsert p acc) []

/-- The sorting relation for dict entries: compare the hex digest strings of
the keys (`sorted(keyhashes)` sorts those strings; hex strings of equal
length compare like their underlying digests byte for byte). -/
def keyLeR (p q : List Nat × List Nat) : Prop := lexLe p.1 q.1 = true

instance : DecidableRel keyLeR := fun p q => inferInstanceAs (Decidable (lexLe p.1 q.1 = true))

mutual

/-- The byte stream of the `Hasher` returned by `lazyhash` (lazyhash.py).
Scalars: a `str` contributes its UTF-8 bytes and a `bytes` its raw bytes with
no type tag; `int`/`float`/`bool` contribute `"typename(value)"`; `None`
falls through every `isinstance` check to `Hasher(None)`, the empty stream.
Containers seed with `stringer(type(d))` and fold in child digests:
lists/tuples in order (`_lazyhash_iter`), sets in sorted digest order
(`_lazyhash_set`), dicts sorted by the hex string of each key digest, folding
in md5 of that hex string and then the value digest (`_lazyhash_dict`). -/
def lazyhash : Value → List Nat
  | .vnone => []
  | .vbool b => strBytes ("bool(" ++ boolRepr b ++ ")")
  | .vint n => strBytes ("int(" ++ intRepr n ++ ")")
  | .vfloat _ _ s => strBytes ("float(" ++ s ++ ")")
  | .vstr s => strBytes s
  | .vbytes bs => bs
  | .vlist xs => classTag "list" ++ (digestsOf xs).flatten
  | .vtuple xs => classTag "tuple" ++ (digestsOf xs).flatten
  | .vset xs => classTag "set" ++ (List.insertionSort bytesLeR (digestsOf xs)).flatten
  | .vdict es =>
    classTag "dict" ++
      ((List.insertionSort keyLeR (dedupK (entryDigests es))).map
        (fun p => md5 p.1 ++ p.2)).flatten

/-- Digests of the elements of an iterable, in iteration order. -/
def digestsOf : List Value → List (List Nat)
  | [] => []
  | x :: xs => md5 (lazyhash x) :: digestsOf xs

/-- For each dict entry, the hex rendering (as ASCII bytes) of the key's
digest paired with the value's digest. -/
def entryDigests : List (Value × Value) → List (List Nat × List Nat)
  | [] => []
  | (k, v) :: es => (hexAscii (md5 (lazyhash k)), md5 (lazyhash v)) :: entryDigests es

end

/-- The digest (`Hasher.digest()` bytes) of a value. -/
def digest (v : Value) : List Nat := md5 (lazyhash v)

/-- The hexdigest string of a value's digest, as ASCII codes. -/
def hexdigest (v : Value) : List Nat := hexAscii (digest v)

/-- The hex string of a dict entry's key digest, the quantity
`_lazyhash_dict` sorts by and hashes (as ASCII codes). -/
def keyHex (e : Value × Value) : List Nat := hexAscii (md5 (lazyhash e.1))

/-! ## The Hasher comparison operators

`Hasher.__eq__` compares `digest()` bytes; `__lt__` evaluates
`self.msg.digest() <= other.msg.digest()` and `__gt__` evaluates `>=`
(both non-strict, as written in the source). -/

/-- `Hasher.__eq__` on two accumulators, given as their fed byte streams. -/
def hasherEq (a b : List Nat) : Bool := decide (md5 a = md5 b)

/-- `Hasher.__lt__` (the source compares with `<=`). -/
def hasherLt (a b : List Nat) : Bool := lexLe (md5 a) (md5 b)

/-- `Hasher.__gt__` (the source compares with `>=`). -/
def hasherGt (a b : List Nat) : Bool := lexLe (md5 b) (md5 a)

/-! ## The fallback for unknown types

A value of an unknown, unregistered type that is not mapping-like or
iterable reaches the final `return Hasher(a)` of `lazyhash`.
`Hasher.__init__` then calls `hashlib`'s `update(a)` directly, which accepts
only buffer-protocol objects: an unknown object backed by a raw buffer is
hashed as its raw bytes, and any other object raises `TypeError`.  No
`UnhashableTypeError` is defined anywhere in the repository. -/

/-- An unknown, unregistered, non-container Python object: its type name and,
when it supports the buffer protocol, its raw bytes. -/
inductive PyUnknown where
  | mk (typename : String) (buffer : Option (List Nat))

/-- Digesting any supported value or an unknown object; errors model raised
exceptions. -/
def lazyhashAny : Value ⊕ PyUnknown → Except String (List Nat)
  | .inl v => .ok (digest v)
  | .inr (.mk _ (some buf)) => .ok (md5 buf)
  | .inr (.mk _ Option.none) => .error "TypeError"

/-- The fallback digest as the spec's words describe it (hash of the type
name plus a default text rendering).  No code in the repository implements
this; it is defined only to compare the spec's description with the code's
actual fallback. -/
def specFallbackDigest (typename rendering : String) : List Nat :=
  md5 (strBytes typename ++ strBytes rendering)

/-- The mapping digest as the spec's words describe step 4: sort entries by
the string form of the key's digest, then combine `digest(key)` followed by
`digest(value)` per entry.  Defined only to compare with `_lazyhash_dict`,
which hashes the md5 of the hex string of the key digest, not the key digest
itself. -/
def specKeyLeR (e f : Value × Value) : Prop := lexLe (keyHex e) (keyHex f) = true

instance : DecidableRel specKeyLeR :=
  fun e f => inferInstanceAs (Decidable (lexLe (keyHex e) (keyHex f) = true))

/-- Spec-described mapping combination (see `specKeyLeR`). -/
def dictDigestSpec (es : List (Value × Value)) : List Nat :=
  classTag "dict" ++
    ((List.insertionSort specKeyLeR es).map (fun e => digest e.1 ++ digest e.2)).flatten

/-! ## The canonicalizer (`crystallize`, crystal.py)

Python's `==` and `<` on the values that can appear as mapping keys, then the
canonicalization itself.  `crystallize` leaves JSON primitives unchanged,
turns a mapping into a `Crystal` built by iterating `sorted(obj)` (Python
`sorted` over the raw keys, which raises `TypeError` when it compares an
incomparable pair), wraps `bytes` as `CrystalBytes`, and turns any other
iterable — lists, tuples and also sets — into a `CrystalTuple` of
recursively crystallized elements in iteration order.  `Crystal` is a `dict`
subclass, `CrystalTuple` a `tuple` subclass and `CrystalBytes` a `bytes`
subclass, and Python `==` ignores the subclass, so the canonical forms are
embedded as plain `vdict`/`vtuple`/`vbytes` values. -/

/-- The numeric value of an `int`, `bool` or `float` as a fraction
(Python compares and equates these cross-type by numeric value;
`True == 1`, `0 == 0.0`). -/
def ratOf : Value → Option (Int × Int)
  | .vint n => some (n, 1)
  | .vbool b => some (if b then 1 else 0, 1)
  | .vfloat num den _ => some (num, (den : Int))
  | _ => Option.none

/-- Equality of two fractions by cross-multiplication. -/
def fracEq (x y : Int × Int) : Bool := decide (x.1 * y.2 = y.1 * x.2)

/-- Strict order on two fractions (positive denominators) by
cross-multiplication. -/
def fracLt (x y : Int × Int) : Bool := decide (x.1 * y.2 < y.1 * x.2)

mutual

/-- Python `==`.  Numbers compare by value across `int`/`bool`/`float`;
strings, bytes and `None` structurally; sequences elementwise (a list never
equals a tuple).  Mappings and sets compare here entrywise in iteration
order — an approximation of Python's order-insensitive content equality that
is only consulted where the code can consult it, inside comparisons of
mapping keys, and mappings and sets are unhashable so cannot occur there. -/
def pyEq : Value → Value → Bool
  | .vstr s, .vstr t => decide (s = t)
  | .vbytes s, .vbytes t => decide (s = t)
  | .vnone, .vnone => true
  | .vtuple xs, .vtuple ys => pyEqList xs ys
  | .vlist xs, .vlist ys => pyEqList xs ys
  | .vset xs, .vset ys => pyEqList xs ys
  | .vdict es, .vdict fs => pyEqEntries es fs
  | a, b =>
    match ratOf a, ratOf b with
    | some x, some y => fracEq x y
    | _, _ => false

def pyEqList : List Value → List Value → Bool
  | [], [] => true
  | x :: xs, y :: ys => pyEq x y && pyEqList xs ys
  | _, _ => false

def pyEqEntries : List (Value × Value) → List (Value × Value) → Bool
  | [], [] => true
  | (k, v) :: es, (k2, v2) :: fs => pyEq k k2 && pyEq v v2 && pyEqEntries es fs
  | _, _ => false

end

mutual

/-- Python `<` as used by `sorted` on mapping keys; `Option.none` models a
raised `TypeError` (incomparable operands).  Numbers compare by value
across `int`/`bool`/`float`; strings by code point; bytes bytewise;
sequences lexicographically.  `None` and container kinds are incomparable
(Python set `<` is subset ordering, but sets are unhashable and never occur
as mapping keys, the one place this relation is consulted). -/
def pyLt : Value → Value → Option Bool
  | .vstr s, .vstr t => some (lexLt (strCodes s) (strCodes t))
  | .vbytes s, .vbytes t => some (lexLt s t)
  | .vtuple xs, .vtuple ys => pyLtSeq xs ys
  | .vlist xs, .vlist ys => pyLtSeq xs ys
  | a, b =>
    match ratOf a, ratOf b with
    | some x, some y => some (fracLt x y)
    | _, _ => Option.none

/-- Python sequence comparison: skip equal prefixes, decide at the first
unequal position, shorter prefixes sort first. -/
def pyLtSeq : List Value → List Value → Option Bool
  | [], [] => some false
  | [], _ :: _ => some true
  | _ :: _, [] => some false
  | x :: xs, y :: ys => if pyEq x y then pyLtSeq xs ys else pyLt x y

end

/-- Stable insertion of `x` into `l` under a partial strict order: `x` is
placed before the first element `y` with `¬ (y < x)`; an undefined
comparison aborts (models `TypeError` escaping from `sorted`). -/
def insO {α : Type} (lt : α → α → Option Bool) (x : α) : List α → Option (List α)
  | [] => some [x]
  | y :: ys =>
    match lt y x with
    | Option.none => Option.none
    | some true => (insO lt x ys).map (fun l => y :: l)
    | some false => some (x :: y :: ys)

/-- Stable sort by repeated insertion; the embedding of Python `sorted`
(Python's sort performs a different comparison sequence, but on operands
whose comparisons are all defined the result is the same stable order). -/
def sortO {α : Type} (lt : α → α → Option Bool) : List α → Option (List α)
  | [] => some []
  | x :: xs =>
    match sortO lt xs with
    | Option.none => Option.none
    | some l => insO lt x l

/-- Ordering of paired (raw entry, crystallized entry) by the raw key, the
comparison `sorted(obj)` performs in `mapping_crystallize`. -/
def entLt (p q : (Value × Value) × (Value × Value)) : Option Bool := pyLt p.1.1 q.1.1

mutual

/-- `crystallize` (crystal.py): JSON primitives pass through; a mapping is
rebuilt with entries sorted by raw key (`sorted` raising `TypeError` on
incomparable keys) and keys/values crystallized; bytes pass through
(`CrystalBytes` content equals the original bytes); every other iterable —
including sets, which match no earlier branch — becomes the tuple of its
crystallized elements in iteration order (`CrystalTuple`).  The source sorts
the raw keys first and then crystallizes in sorted order; crystallizing
entrywise first and sorting the paired list by raw key yields the same
entries in the same order, as both steps are pure. -/
def crystallize : Value → Option Value
  | .vnone => some .vnone
  | .vbool b => some (.vbool b)
  | .vint n => some (.vint n)
  | .vfloat n d s => some (.vfloat n d s)
  | .vstr s => some (.vstr s)
  | .vdict es =>
    match crysEntries es with
    | Option.none => Option.none
    | some ces =>
      match sortO entLt (es.zip ces) with
      | Option.none => Option.none
      | some zs => some (.vdict (zs.map Prod.snd))
  | .vbytes bs => some (.vbytes bs)
  | .vlist xs =>
    match crysList xs with
    | Option.none => Option.none
    | some ys => some (.vtuple ys)
  | .vtuple xs =>
    match crysList xs with
    | Option.none => Option.none
    | some ys => some (.vtuple ys)
  | .vset xs =>
    match crysList xs with
    | Option.none => Option.none
    | some ys => some (.vtuple ys)

def crysList : List Value → Option (List Value)
  | [] => some []
  | x :: xs =>
    match crystallize x, crysList xs with
    | some y, some ys => some (y :: ys)
    | _, _ => Option.none

def crysEntries : List (Value × Value) → Option (List (Value × Value))
  | [] => some []
  | (k, v) :: es =>
    match crystallize k, crystallize v, crysEntries es with
    | some k2, some v2, some es2 => some ((k2, v2) :: es2)
    | _, _, _ => Option.none

end

mutual

/-- Python hashability, which constrains what can be a mapping key: scalars
and bytes are hashable, tuples of hashable elements are hashable, and
lists, sets and dicts are not. -/
def hashableB : Value → Bool
  | .vnone | .vbool _ | .vint _ | .vfloat _ _ _ | .vstr _ | .vbytes _ => true
  | .vtuple xs => hashableL xs
  | .vlist _ | .vset _ | .vdict _ => false

def hashableL : List Value → Bool
  | [] => true
  | x :: xs => hashableB x && hashableL xs

end

mutual

/-- Well-formedness of a value as a Python object: every mapping key in it,
at any depth, is hashable (Python enforces this at dict construction). -/
def wfB : Value → Bool
  | .vnone | .vbool _ | .vint _ | .vfloat _ _ _ | .vstr _ | .vbytes _ => true
  | .vtuple xs | .vlist xs | .vset xs => wfL xs
  | .vdict es => wfE es

def wfL : List Value → Bool
  | [] => true
  | x :: xs => wfB x && wfL xs

def wfE : List (Value × Value) → Bool
  | [] => true
  | (k, v) :: es => hashableB k && wfB v && wfE es

end

/-! ## Facts about the embedding

Cross-checks of the embedding against the hexdigest values recorded in the
doctests of lazyhash.py, followed by the supporting lemmas. -/

example : hexAscii (md5 []) = strCodes "d41d8cd98f00b204e9800998ecf8427e" := by decide

example : hexAscii (md5 (strBytes "a")) = strCodes "0cc175b9c0f1b6a831c399e269772661" := by
  decide

example : hexAscii (md5 (strBytes "hello world"))
    = strCodes "5eb63bbbe01eeed093cb22bb8f5acdc3" := by decide

theorem lexLe_refl : ∀ a : List Nat, lexLe a a = true
  | [] => rfl
  | a :: as => by simp [lexLe, Nat.lt_irrefl, lexLe_refl as]

theorem lexLe_total : ∀ a b : List Nat, lexLe a b = true ∨ lexLe b a = true
  | [], _ => Or.inl rfl
  | _ :: _, [] => Or.inr rfl
  | a :: as, b :: bs => by
    rcases Nat.lt_trichotomy a b with h | h | h
    · exact Or.inl (by simp [lexLe, h])
    · subst h
      rcases lexLe_total as bs with h2 | h2
      · exact Or.inl (by simp [lexLe, Nat.lt_irrefl, h2])
      · exact Or.inr (by simp [lexLe, Nat.lt_irrefl, h2])
    · exact Or.inr (by simp [lexLe, h])

theorem lexLe_trans :
    ∀ a b c : List Nat, lexLe a b = true → lexLe b c = true → lexLe a c = true
  | [], _, _, _, _ => rfl
  | _ :: _, [], _, h1, _ => by simp [lexLe] at h1
  | _ :: _, _ :: _, [], _, h2 => by simp [lexLe] at h2
  | a :: as, b :: bs, c :: cs, h1, h2 => by
    simp only [lexLe] at h1 h2 ⊢
    rcases Nat.lt_trichotomy a b with hab | hab | hab
    · rcases Nat.lt_trichotomy b c with hbc | hbc | hbc
      · simp [Nat.lt_trans hab hbc]
      · subst hbc; simp [hab]
      · rw [if_neg (Nat.lt_asymm hbc), if_pos hbc] at h2; simp at h2
    · subst hab
      rcases Nat.lt_trichotomy a c with hac | hac | hac
      · simp [hac]
      · subst hac
        rw [if_neg (Nat.lt_irrefl _), if_neg (Nat.lt_irrefl _)] at h1 h2 ⊢
        exact lexLe_trans as bs cs h1 h2
      · rw [if_neg (Nat.lt_asymm hac), if_pos hac] at h2; simp at h2
    · rw [if_neg (Nat.lt_asymm hab), if_pos hab] at h1; simp at h1

theorem lexLe_antisymm : ∀ a b : List Nat, lexLe a b = true → lexLe b a = true → a = b
  | [], [], _, _ => rfl
  | [], _ :: _, _, h2 => by simp [lexLe] at h2
  | _ :: _, [], h1, _ => by simp [lexLe] at h1
  | a :: as, b :: bs, h1, h2 => by
    rcases Nat.lt_trichotomy a b with hab | hab | hab
    · simp only [lexLe] at h2
      rw [if_neg (Nat.lt_asymm hab), if_pos hab] at h2; simp at h2
    · subst hab
      simp only [lexLe] at h1 h2
      rw [if_neg (Nat.lt_irrefl _), if_neg (Nat.lt_irrefl _)] at h1 h2
      rw [lexLe_antisymm as bs h1 h2]
    · simp only [lexLe] at h1
      rw [if_neg (Nat.lt_asymm hab), if_pos hab] at h1; simp at h1

theorem lexLt_irrefl : ∀ a : List Nat, lexLt a a = false
  | [] => rfl
  | a :: as => by simp [lexLt, Nat.lt_irrefl, lexLt_irrefl as]

theorem lexLt_asymm : ∀ a b : List Nat, lexLt a b = true → lexLt b a = false
  | [], [], h => by simp [lexLt] at h
  | [], _ :: _, _ => rfl
  | _ :: _, [], h => by simp [lexLt] at h
  | a :: as, b :: bs, h => by
    simp only [lexLt] at h ⊢
    rcases Nat.lt_trichotomy a b with hab | hab | hab
    · rw [if_neg (Nat.lt_asymm hab), if_pos hab]
    · subst hab
      rw [if_neg (Nat.lt_irrefl _), if_neg (Nat.lt_irrefl _)] at h ⊢
      exact lexLt_asymm as bs h
    · rw [if_neg (Nat.lt_asymm hab), if_pos hab] at h; simp at h

theorem lexLe_eq_not_lt : ∀ a b : List Nat, lexLe a b = !(lexLt b a)
  | [], [] => rfl
  | [], _ :: _ => rfl
  | _ :: _, [] => rfl
  | a :: as, b :: bs => by
    simp only [lexLe, lexLt]
    rcases Nat.lt_trichotomy a b with hab | hab | hab
    · rw [if_pos hab, if_neg (Nat.lt_asymm hab), if_pos hab]; rfl
    · subst hab
      rw [if_neg (Nat.lt_irrefl _), if_neg (Nat.lt_irrefl _), if_neg (Nat.lt_irrefl _),
        if_neg (Nat.lt_irrefl _)]
      exact lexLe_eq_not_lt as bs
    · rw [if_neg (Nat.lt_asymm hab), if_pos hab, if_pos hab]; rfl

theorem lexLt_le {a b : List Nat} (h : lexLt a b = true) : lexLe a b = true := by
  rw [lexLe_eq_not_lt, lexLt_asymm a b h]; rfl

theorem lexLt_not_le {a b : List Nat} (h : lexLt a b = true) : lexLe b a = false := by
  rw [lexLe_eq_not_lt, h]; rfl

theorem lexLt_ne {a b : List Nat} (h : lexLt a b = true) : a ≠ b := by
  intro e; subst e; rw [lexLt_irrefl] at h; simp at h

theorem digestsOf_eq_map : ∀ l : List Value, digestsOf l = l.map fun x => md5 (lazyhash x)
  | [] => rfl
  | x :: xs => by simp [digestsOf, digestsOf_eq_map xs]

example : hexdigest (.vstr "a") = strCodes "0cc175b9c0f1b6a831c399e269772661" := by decide

example : hexdigest (.vint 0) = strCodes "4136793a3e2443479e791d8df9269102" := by decide

example : hexdigest (.vfloat 0 1 "0.0") = strCodes "75892eca87ec0bc4a601b857240324d0" := by
  decide

example : hexdigest .vnone = strCodes "d41d8cd98f00b204e9800998ecf8427e" := by decide

example : hexdigest (.vbool false) = strCodes "c1c301efa8ce15f48a7313e9c2db6c9c" := by
  decide

example :
    hexdigest (.vlist [.vstr "a", .vint 2, .vbytes [100], .vfloat 157 50 "3.14"])
      = strCodes "e709c6b0e64138e6c5562da42dcacbdd" := by decide

example :
    hexdigest (.vtuple [.vstr "a", .vint 2, .vbytes [100], .vfloat 157 50 "3.14"])
      = strCodes "cc60f60957db404383637797f6eb2720" := by decide

example :
    hexdigest (.vtuple [.vtuple [.vstr "a", .vint 2], .vtuple [.vbytes [100], .vfloat 157 50 "3.14"]])
      = strCodes "bd6b66cee8dad021f867f4d2da9b88bd" := by decide

example :
    hexdigest (.vset [.vstr "a", .vint 2, .vbytes [100], .vfloat 157 50 "3.14"])
      = strCodes "33d81b6e6d000f16db5ecdcef30ca424" := by decide

example :
    hexdigest (.vdict [(.vstr "a", .vint 2), (.vint 3, .vfloat 157 50 "3.14")])
      = strCodes "40f1f887b979c36cb94b3fafd56a4559" := by decide

example :
    hexdigest (.vdict
      [(.vstr "a", .vint 2), (.vint 3, .vfloat 157 50 "3.14"),
       (.vstr "nest", .vdict
         [(.vstr "list", .vlist [.vint 1, .vint 2]),
          (.vstr "dict", .vdict [(.vint 2, .vint 4)])])])
      = strCodes "76eb9aa821436d36fe1084cb124aa53d" := by decide

end Hashomatic

namespace Hashomatic

/-- C2: for every finite set of supported elements, `digest` returns the same
digest regardless of the iteration order of the set's elements: the element
digests are computed, sorted lexicographically, and combined in sorted
order. -/
theorem set_digest_perm_invariant (l₁ l₂ : List Value) (h : l₁.Perm l₂) :
    digest (.vset l₁) = digest (.vset l₂) := by
  have hd : (digestsOf l₁).Perm (digestsOf l₂) := by
    rw [digestsOf_eq_map, digestsOf_eq_map]; exact h.map _
  haveI : IsTotal (List Nat) bytesLeR := ⟨lexLe_total⟩
  haveI : IsTrans (List Nat) bytesLeR := ⟨lexLe_trans⟩
  haveI : IsAntisymm (List Nat) bytesLeR := ⟨lexLe_antisymm⟩
  have hs : List.insertionSort bytesLeR (digestsOf l₁)
      = List.insertionSort bytesLeR (digestsOf l₂) :=
    List.eq_of_perm_of_sorted
      (((List.perm_insertionSort _ _).trans hd).trans (List.perm_insertionSort _ _).symm)
      (List.sorted_insertionSort _ _) (List.sorted_insertionSort _ _)
  simp [digest, lazyhash, hs]

/-- Witness for C2 at the spec's example: the three-element set hashed from
two iteration orders. -/
theorem set_digest_perm_invariant_case :
    ([Value.vint 1, Value.vint 2, Value.vint 3].Perm
        [Value.vint 3, Value.vint 2, Value.vint 1])
    ∧ digest (.vset [.vint 1, .vint 2, .vint 3])
        = digest (.vset [.vint 3, .vint 2, .vint 1])
    ∧ digest (.vset [.vint 2, .vint 1, .vint 3])
        = digest (.vset [.vint 1, .vint 2, .vint 3]) :=
  ⟨by decide, set_digest_perm_invariant _ _ (by decide),
    set_digest_perm_invariant _ _ (by decide)⟩

/-- C1 counterexample: a `str` and a `bytes` value are scalars of different
semantic types with the same textual content, and they share a digest,
because the string and byte-blob paths of `lazyhash` hash raw content bytes
with no type tag. -/
theorem scalar_type_collision :
    Value.vstr "0" ≠ Value.vbytes [48]
    ∧ digest (.vstr "0") = digest (.vbytes [48]) :=
  ⟨by simp, congrArg md5 (by decide)⟩

/-- C1 amended: the five digests named by the claim are pairwise distinct
(`int`/`float`/`bool` values are rendered with a type tag, `"0"` hashes its
raw bytes, `None` hashes the empty stream); full separation fails only
between the untagged kinds (str, bytes, null), per `scalar_type_collision`. -/
theorem scalar_type_separation_amended :
    [digest (.vint 0), digest (.vfloat 0 1 "0.0"), digest (.vbool false),
      digest .vnone, digest (.vstr "0")].Pairwise (· ≠ ·) := by decide

/-- C5: a sequence digest combines the digest of each element in original
order, and it is order-sensitive: `[1, 2]` and `[2, 1]` hash differently. -/
theorem seq_digest_order_sensitive :
    (∀ xs : List Value,
        lazyhash (.vlist xs) = classTag "list" ++ (xs.map fun x => digest x).flatten
        ∧ lazyhash (.vtuple xs) = classTag "tuple" ++ (xs.map fun x => digest x).flatten)
    ∧ digest (.vlist [.vint 1, .vint 2]) ≠ digest (.vlist [.vint 2, .vint 1]) := by
  refine ⟨fun xs => ⟨?_, ?_⟩, by decide⟩
  · simp [lazyhash, digestsOf_eq_map, digest]
  · simp [lazyhash, digestsOf_eq_map, digest]

/-- C4 counterexample: on the one-entry mapping `\x7b"a": 1\x7d` the digest the
code computes differs from the digest prescribed by the spec's step 4
(combine `digest(key)` then `digest(value)`), because `_lazyhash_dict`
combines the md5 of the hex string of the key digest, not the key digest. -/
theorem dict_spec_step_counterexample :
    digest (.vdict [(.vstr "a", .vint 1)])
      ≠ md5 (dictDigestSpec [(.vstr "a", .vint 1)]) := by decide

/-- C4 amended: per entry, in order of the hex string of the key digest, the
mapping hasher combines the md5 of that hex string followed by the value's
digest. -/
theorem dict_combines_hexdigest_of_key (k₁ v₁ k₂ v₂ : Value)
    (h : lexLt (keyHex (k₁, v₁)) (keyHex (k₂, v₂)) = true) :
    lazyhash (.vdict [(k₁, v₁), (k₂, v₂)])
      = classTag "dict" ++ md5 (keyHex (k₁, v₁)) ++ digest v₁
          ++ md5 (keyHex (k₂, v₂)) ++ digest v₂
    ∧ lazyhash (.vdict [(k₂, v₂), (k₁, v₁)]) = lazyhash (.vdict [(k₁, v₁), (k₂, v₂)]) := by
  have hne : keyHex (k₁, v₁) ≠ keyHex (k₂, v₂) := lexLt_ne h
  have hle : lexLe (keyHex (k₁, v₁)) (keyHex (k₂, v₂)) = true := lexLt_le h
  have hnle : lexLe (keyHex (k₂, v₂)) (keyHex (k₁, v₁)) = false := lexLt_not_le h
  simp only [keyHex] at hne hle hnle
  constructor
  · simp [lazyhash, entryDigests, dedupK, upsert, keyLeR, keyHex, digest,
      List.insertionSort, List.orderedInsert, hle, hnle, hne, List.append_assoc]
  · simp [lazyhash, entryDigests, dedupK, upsert, keyLeR, digest,
      List.insertionSort, List.orderedInsert, hle, hnle, hne, Ne.symm hne,
      List.append_assoc]

/-- Witness for C4 at `\x7b"a": 1, "b": 2\x7d`. -/
theorem dict_combines_hexdigest_of_key_case :
    (lexLt (keyHex (.vstr "a", .vint 1)) (keyHex (.vstr "b", .vint 2)) = true)
    ∧ lazyhash (.vdict [(.vstr "a", .vint 1), (.vstr "b", .vint 2)])
        = classTag "dict" ++ md5 (keyHex (.vstr "a", .vint 1)) ++ digest (.vint 1)
            ++ md5 (keyHex (.vstr "b", .vint 2)) ++ digest (.vint 2)
    ∧ lazyhash (.vdict [(.vstr "b", .vint 2), (.vstr "a", .vint 1)])
        = lazyhash (.vdict [(.vstr "a", .vint 1), (.vstr "b", .vint 2)]) :=
  ⟨by decide, (dict_combines_hexdigest_of_key _ _ _ _ (by decide)).1,
    (dict_combines_hexdigest_of_key _ _ _ _ (by decide)).2⟩

/-- C9 counterexample: on equal accumulators `__lt__`, `__gt__` and `__eq__`
all hold simultaneously — the comparison is not strict (`__lt__` compares
with `<=`), so `a < a` holds and "exactly one of `a < b`, `a == b`,
`b < a`" fails. -/
theorem hasher_lt_not_strict :
    hasherLt [] [] = true ∧ hasherGt [] [] = true ∧ hasherEq [] [] = true := by decide

/-- C9 amended: the comparison operators act on `digest()` bytes only;
equality is digest-byte equality; `__lt__` implements the *non-strict*
byte-lexicographic order: it is total and reflexive, and `a < b` and
`b < a` hold together exactly when the digests are equal. -/
theorem hasher_comparison_amended :
    ∀ a b : List Nat,
      hasherEq a b = decide (md5 a = md5 b)
      ∧ hasherLt a b = lexLe (md5 a) (md5 b)
      ∧ (hasherLt a b || hasherLt b a) = true
      ∧ hasherLt a a = true
      ∧ (hasherLt a b && hasherLt b a) = hasherEq a b := by
  intro a b
  refine ⟨rfl, rfl, ?_, ?_, ?_⟩
  · rcases lexLe_total (md5 a) (md5 b) with h | h <;> simp [hasherLt, h]
  · simp [hasherLt, lexLe_refl]
  · by_cases hmd : md5 a = md5 b
    · simp [hasherLt, hasherEq, hmd, lexLe_refl]
    · cases hab : lexLe (md5 a) (md5 b) <;> cases hba : lexLe (md5 b) (md5 a) <;>
        simp [hasherLt, hasherEq, hab, hba, hmd]
      exact absurd (lexLe_antisymm _ _ hab hba) hmd

/-- C8 counterexample: a value of an unknown, unregistered type with no
buffer protocol reaches `return Hasher(a)` and raises `TypeError` — it does
not hash the type name plus a text rendering and does not return a digest. -/
theorem unknown_type_raises :
    lazyhashAny (.inr (.mk "object" Option.none)) = .error "TypeError"
    ∧ ∀ r : String, lazyhashAny (.inr (.mk "object" Option.none))
        ≠ .ok (specFallbackDigest "object" r) :=
  ⟨rfl, fun _ h => Except.noConfusion h⟩

/-- C8 amended: `digest` never throws for supported kinds; an unknown,
unregistered, non-container value is passed raw to the hash primitive, so a
buffer-backed object hashes its raw buffer bytes and anything else raises
`TypeError` (no `UnhashableTypeError` exists in the code). -/
theorem unknown_fallback_amended :
    (∀ v : Value, lazyhashAny (.inl v) = .ok (digest v))
    ∧ (∀ (t : String) (buf : List Nat),
        lazyhashAny (.inr (.mk t (some buf))) = .ok (md5 buf))
    ∧ (∀ t : String, lazyhashAny (.inr (.mk t Option.none)) = .error "TypeError") :=
  ⟨fun _ => rfl, fun _ _ => rfl, fun _ => rfl⟩

/-- C10: the string, byte-string and null scalar paths carry no type tag:
every string digests exactly like its UTF-8 byte encoding, and `None`
digests like the empty string and the empty byte-string. -/
theorem untagged_scalar_paths :
    (∀ s : String, digest (.vstr s) = digest (.vbytes (strBytes s)))
    ∧ digest .vnone = digest (.vstr "")
    ∧ digest .vnone = digest (.vbytes []) :=
  ⟨fun _ => rfl, rfl, rfl⟩

end Hashomatic

namespace Hashomatic

mutual

theorem pyEq_symm : ∀ a b, pyEq a b = pyEq b a
  | a, b => by
    cases a <;> cases b <;> simp only [pyEq, ratOf, fracEq] <;>
      first
        | rfl
        | exact decide_eq_decide.mpr eq_comm
        | exact pyEqList_symm _ _
        | exact pyEqEntries_symm _ _

theorem pyEqList_symm : ∀ xs ys, pyEqList xs ys = pyEqList ys xs
  | [], [] => rfl
  | [], _ :: _ => rfl
  | _ :: _, [] => rfl
  | x :: xs, y :: ys => by
    simp only [pyEqList]
    rw [pyEq_symm x y, pyEqList_symm xs ys]

theorem pyEqEntries_symm : ∀ es fs, pyEqEntries es fs = pyEqEntries fs es
  | [], [] => rfl
  | [], _ :: _ => rfl
  | _ :: _, [] => rfl
  | (k, v) :: es, (k2, v2) :: fs => by
    simp only [pyEqEntries]
    rw [pyEq_symm k k2, pyEq_symm v v2, pyEqEntries_symm es fs]

end

mutual

theorem pyLt_asymm : ∀ a b, pyLt a b = some true → pyLt b a = some false
  | a, b => by
    cases a <;> cases b <;> simp only [pyLt, ratOf, fracLt] <;>
      first
        | (intro h; exact Option.noConfusion h)
        | (intro h
           simp only [Option.some_inj] at h ⊢
           exact lexLt_asymm _ _ h)
        | (intro h
           simp only [Option.some_inj, decide_eq_true_eq] at h
           simp only [Option.some_inj, decide_eq_false_iff_not]
           omega)
        | exact pyLtSeq_asymm _ _

theorem pyLtSeq_asymm : ∀ xs ys, pyLtSeq xs ys = some true → pyLtSeq ys xs = some false
  | [], [], h => by simp [pyLtSeq] at h
  | [], _ :: _, _ => rfl
  | _ :: _, [], h => by simp [pyLtSeq] at h
  | x :: xs, y :: ys, h => by
    simp only [pyLtSeq] at h ⊢
    by_cases he : pyEq x y = true
    · rw [he] at h
      rw [pyEq_symm y x, he]
      simp only [if_pos rfl] at h ⊢
      exact pyLtSeq_asymm xs ys h
    · have he2 : pyEq x y = false := Bool.not_eq_true _ ▸ eq_false_of_ne_true he
      rw [he2] at h
      rw [pyEq_symm y x, he2]
      simp only [Bool.false_eq_true, if_neg (fun hf : False => hf.elim)] at h ⊢
      exact pyLt_asymm x y h

end

/-! Generic facts about the `sorted` model (`insO`/`sortO`): the output chain
is sorted whenever the comparison is asymmetric, sorting is a permutation,
and sorting an already-sorted list succeeds and returns it unchanged. -/

theorem insO_head {α : Type} (lt : α → α → Option Bool) :
    ∀ (x : α) (l l2 : List α), insO lt x l = some l2 →
      l2.head? = some x ∨ l2.head? = l.head?
  | x, [], l2, h => by
    simp only [insO, Option.some_inj] at h
    subst h; exact Or.inl rfl
  | x, y :: ys, l2, h => by
    simp only [insO] at h
    cases hlt : lt y x with
    | none => rw [hlt] at h; exact Option.noConfusion h
    | some b =>
      rw [hlt] at h
      cases b
      · simp only [Option.some_inj] at h; subst h; exact Or.inl rfl
      · cases hi : insO lt x ys with
        | none => rw [hi] at h; exact Option.noConfusion h
        | some l3 =>
          rw [hi] at h
          simp only [Option.map_some', Option.some_inj] at h
          subst h; exact Or.inr rfl

theorem insO_chain {α : Type} (lt : α → α → Option Bool)
    (hasym : ∀ a b, lt a b = some true → lt b a = some false) :
    ∀ (x : α) (l l2 : List α),
      List.Chain' (fun a b => lt b a = some false) l →
      insO lt x l = some l2 → List.Chain' (fun a b => lt b a = some false) l2
  | x, [], l2, _, h => by
    simp only [insO, Option.some_inj] at h
    subst h; exact List.chain'_singleton x
  | x, y :: ys, l2, hc, h => by
    simp only [insO] at h
    cases hlt : lt y x with
    | none => rw [hlt] at h; exact Option.noConfusion h
    | some b =>
      rw [hlt] at h
      cases b
      · simp only [Option.some_inj] at h
        subst h
        exact List.chain'_cons.mpr ⟨hlt, hc⟩
      · cases hi : insO lt x ys with
        | none => rw [hi] at h; exact Option.noConfusion h
        | some l3 =>
          rw [hi] at h
          simp only [Option.map_some', Option.some_inj] at h
          subst h
          have hc3 : List.Chain' (fun a b => lt b a = some false) l3 :=
            insO_chain lt hasym x ys l3 hc.tail hi
          cases l3 with
          | nil => exact List.chain'_singleton y
          | cons z zs =>
            refine List.chain'_cons.mpr ⟨?_, hc3⟩
            rcases insO_head lt x ys (z :: zs) hi with hh | hh
            · simp only [List.head?_cons, Option.some_inj] at hh
              subst hh; exact hasym y z hlt
            · cases ys with
              | nil => simp at hh
              | cons w ws =>
                simp only [List.head?_cons, Option.some_inj] at hh
                subst hh
                exact (List.chain'_cons.mp hc).1

theorem sortO_chain {α : Type} (lt : α → α → Option Bool)
    (hasym : ∀ a b, lt a b = some true → lt b a = some false) :
    ∀ l l2 : List α, sortO lt l = some l2 →
      List.Chain' (fun a b => lt b a = some false) l2
  | [], l2, h => by
    simp only [sortO, Option.some_inj] at h
    subst h; exact List.chain'_nil
  | x :: xs, l2, h => by
    simp only [sortO] at h
    cases hs : sortO lt xs with
    | none => rw [hs] at h; exact Option.noConfusion h
    | some l3 =>
      rw [hs] at h
      exact insO_chain lt hasym x l3 l2 (sortO_chain lt hasym xs l3 hs) h

theorem insO_perm {α : Type} (lt : α → α → Option Bool) :
    ∀ (x : α) (l l2 : List α), insO lt x l = some l2 → l2.Perm (x :: l)
  | x, [], l2, h => by
    simp only [insO, Option.some_inj] at h
    subst h; exact List.Perm.refl _
  | x, y :: ys, l2, h => by
    simp only [insO] at h
    cases hlt : lt y x with
    | none => rw [hlt] at h; exact Option.noConfusion h
    | some b =>
      rw [hlt] at h
      cases b
      · simp only [Option.some_inj] at h; subst h; exact List.Perm.refl _
      · cases hi : insO lt x ys with
        | none => rw [hi] at h; exact Option.noConfusion h
        | some l3 =>
          rw [hi] at h
          simp only [Option.map_some', Option.some_inj] at h
          subst h
          exact ((insO_perm lt x ys l3 hi).cons y).trans (List.Perm.swap x y ys)

theorem sortO_perm {α : Type} (lt : α → α → Option Bool) :
    ∀ l l2 : List α, sortO lt l = some l2 → l2.Perm l
  | [], l2, h => by
    simp only [sortO, Option.some_inj] at h
    subst h; exact List.Perm.refl _
  | x :: xs, l2, h => by
    simp only [sortO] at h
    cases hs : sortO lt xs with
    | none => rw [hs] at h; exact Option.noConfusion h
    | some l3 =>
      rw [hs] at h
      exact (insO_perm lt x l3 l2 h).trans ((sortO_perm lt xs l3 hs).cons x)

theorem sortO_of_chain {α : Type} (lt : α → α → Option Bool) :
    ∀ l : List α, List.Chain' (fun a b => lt b a = some false) l → sortO lt l = some l
  | [], _ => rfl
  | x :: xs, hc => by
    simp only [sortO]
    rw [sortO_of_chain lt xs hc.tail]
    cases xs with
    | nil => rfl
    | cons y ys =>
      have hxy : lt y x = some false := (List.chain'_cons.mp hc).1
      simp [insO, hxy]

theorem chain'_of_pointwise {α : Type} {R S : α → α → Prop} :
    ∀ l : List α, (∀ a ∈ l, ∀ b ∈ l, R a b → S a b) → List.Chain' R l → List.Chain' S l
  | [], _, _ => List.chain'_nil
  | [a], _, _ => List.chain'_singleton a
  | a :: b :: l, himp, hc => by
    rcases List.chain'_cons.mp hc with ⟨hab, hrest⟩
    refine List.chain'_cons.mpr ⟨himp a (by simp) b (by simp) hab, ?_⟩
    exact chain'_of_pointwise (b :: l)
      (fun x hx y hy => himp x (List.mem_cons_of_mem _ hx) y (List.mem_cons_of_mem _ hy))
      hrest

end Hashomatic

namespace Hashomatic

mutual

theorem hashable_crys : ∀ k, hashableB k = true → crystallize k = some k
  | .vnone, _ => rfl
  | .vbool _, _ => rfl
  | .vint _, _ => rfl
  | .vfloat _ _ _, _ => rfl
  | .vstr _, _ => rfl
  | .vbytes _, _ => rfl
  | .vtuple xs, h => by
    simp only [hashableB] at h
    simp [crystallize, hashable_crysList xs h]
  | .vlist _, h => by simp [hashableB] at h
  | .vset _, h => by simp [hashableB] at h
  | .vdict _, h => by simp [hashableB] at h

theorem hashable_crysList : ∀ xs, hashableL xs = true → crysList xs = some xs
  | [], _ => rfl
  | x :: xs, h => by
    simp only [hashableL, Bool.and_eq_true] at h
    simp [crysList, hashable_crys x h.1, hashable_crysList xs h.2]

end

theorem wfE_forall : ∀ es, wfE es = true → ∀ e ∈ es, hashableB e.1 = true ∧ wfB e.2 = true
  | [], _, e, he => absurd he (List.not_mem_nil e)
  | (k, v) :: es, h, e, he => by
    simp only [wfE, Bool.and_eq_true] at h
    rcases List.mem_cons.mp he with rfl | he2
    · exact ⟨h.1.1, h.1.2⟩
    · exact wfE_forall es h.2 e he2

theorem crysEntries_zip :
    ∀ es ces, crysEntries es = some ces →
      List.Forall₂ (fun (e ce : Value × Value) =>
        crystallize e.1 = some ce.1 ∧ crystallize e.2 = some ce.2) es ces
  | [], ces, h => by
    simp only [crysEntries, Option.some_inj] at h
    subst h; exact List.Forall₂.nil
  | (k, v) :: es, ces, h => by
    simp only [crysEntries] at h
    cases hk : crystallize k with
    | none => rw [hk] at h; simp at h
    | some k2 =>
      cases hv : crystallize v with
      | none => rw [hk, hv] at h; simp at h
      | some v2 =>
        cases hes : crysEntries es with
        | none => rw [hk, hv, hes] at h; simp at h
        | some es2 =>
          rw [hk, hv, hes] at h
          simp only [Option.some_inj] at h
          subst h
          exact List.Forall₂.cons ⟨hk, hv⟩ (crysEntries_zip es es2 hes)

theorem crysList_of_forall : ∀ xs, (∀ x ∈ xs, crystallize x = some x) → crysList xs = some xs
  | [], _ => rfl
  | x :: xs, h => by
    simp [crysList, h x (by simp),
      crysList_of_forall xs (fun y hy => h y (List.mem_cons_of_mem _ hy))]

theorem crysEntries_of_forall :
    ∀ ces, (∀ ce ∈ ces, crystallize ce.1 = some ce.1 ∧ crystallize ce.2 = some ce.2) →
      crysEntries ces = some ces
  | [], _ => rfl
  | (k, v) :: ces, h => by
    have h1 := h (k, v) (by simp)
    simp [crysEntries, h1.1, h1.2,
      crysEntries_of_forall ces (fun ce hce => h ce (List.mem_cons_of_mem _ hce))]

theorem entLt_asymm : ∀ p q, entLt p q = some true → entLt q p = some false :=
  fun _ _ h => pyLt_asymm _ _ h

mutual

theorem crysIdemV : ∀ v c, wfB v = true → crystallize v = some c → crystallize c = some c
  | .vnone, c, _, h => by
    simp only [crystallize, Option.some_inj] at h; subst h; rfl
  | .vbool _, c, _, h => by
    simp only [crystallize, Option.some_inj] at h; subst h; rfl
  | .vint _, c, _, h => by
    simp only [crystallize, Option.some_inj] at h; subst h; rfl
  | .vfloat _ _ _, c, _, h => by
    simp only [crystallize, Option.some_inj] at h; subst h; rfl
  | .vstr _, c, _, h => by
    simp only [crystallize, Option.some_inj] at h; subst h; rfl
  | .vbytes _, c, _, h => by
    simp only [crystallize, Option.some_inj] at h; subst h; rfl
  | .vtuple xs, c, hwf, h => by
    simp only [wfB] at hwf
    simp only [crystallize] at h
    cases hx : crysList xs with
    | none => rw [hx] at h; simp at h
    | some ys =>
      rw [hx] at h; simp only [Option.some_inj] at h; subst h
      simp [crystallize, crysIdemL xs ys hwf hx]
  | .vlist xs, c, hwf, h => by
    simp only [wfB] at hwf
    simp only [crystallize] at h
    cases hx : crysList xs with
    | none => rw [hx] at h; simp at h
    | some ys =>
      rw [hx] at h; simp only [Option.some_inj] at h; subst h
      simp [crystallize, crysIdemL xs ys hwf hx]
  | .vset xs, c, hwf, h => by
    simp only [wfB] at hwf
    simp only [crystallize] at h
    cases hx : crysList xs with
    | none => rw [hx] at h; simp at h
    | some ys =>
      rw [hx] at h; simp only [Option.some_inj] at h; subst h
      simp [crystallize, crysIdemL xs ys hwf hx]
  | .vdict es, c, hwf, h => by
    simp only [wfB] at hwf
    simp only [crystallize] at h
    cases hce : crysEntries es with
    | none => rw [hce] at h; simp at h
    | some ces =>
      simp only [hce] at h
      cases hzs : sortO entLt (es.zip ces) with
      | none => simp [hzs] at h
      | some zs =>
        simp only [hzs, Option.some_inj] at h
        subst h
        have hforall := crysEntries_zip es ces hce
        have hzip : ∀ p : (Value × Value) × (Value × Value), p ∈ es.zip ces →
            crystallize p.1.1 = some p.2.1 ∧ crystallize p.1.2 = some p.2.2 := by
          intro p hp
          obtain ⟨e, ce⟩ := p
          exact (List.forall₂_iff_zip.mp hforall).2 hp
        have hwfes := wfE_forall es hwf
        have hpt := crysIdemE es ces hwf hce
        have hperm : zs.Perm (es.zip ces) := sortO_perm entLt _ zs hzs
        have hmem : ∀ z ∈ zs, z ∈ es.zip ces := fun z hz => hperm.mem_iff.mp hz
        have hkey : ∀ z ∈ zs, z.2.1 = z.1.1 := by
          intro z hz
          have hze := hmem z hz
          have he : z.1 ∈ es := (List.of_mem_zip hze).1
          have h1 : crystallize z.1.1 = some z.2.1 := (hzip z hze).1
          have h2 : crystallize z.1.1 = some z.1.1 := hashable_crys z.1.1 (hwfes z.1 he).1
          exact (Option.some_inj.mp (h2.symm.trans h1)).symm
        have hds : ∀ d ∈ zs.map Prod.snd,
            crystallize d.1 = some d.1 ∧ crystallize d.2 = some d.2 := by
          intro d hd
          obtain ⟨z, hz, rfl⟩ := List.mem_map.mp hd
          have hce2 : z.2 ∈ ces := (List.of_mem_zip (hmem z hz)).2
          have := hpt z.2 hce2
          exact ⟨this.1.2, this.2⟩
        have hE : crysEntries (zs.map Prod.snd) = some (zs.map Prod.snd) :=
          crysEntries_of_forall _ hds
        have hchainZ : List.Chain' (fun a b => entLt b a = some false) zs :=
          sortO_chain entLt entLt_asymm _ zs hzs
        have hchainS : List.Chain' (fun z w : (Value × Value) × (Value × Value) =>
            pyLt w.2.1 z.2.1 = some false) zs := by
          refine chain'_of_pointwise zs ?_ hchainZ
          intro a ha b hb hR
          rw [hkey a ha, hkey b hb]
          exact hR
        have hzipmap : (zs.map Prod.snd).zip (zs.map Prod.snd)
            = zs.map (fun z => (z.2, z.2)) := List.zip_map' Prod.snd Prod.snd zs
        have hchainD : List.Chain' (fun a b => entLt b a = some false)
            ((zs.map Prod.snd).zip (zs.map Prod.snd)) := by
          rw [hzipmap]
          exact (List.chain'_map _).mpr hchainS
        have hsorted : sortO entLt (zs.map (fun z => (z.2, z.2)))
            = some (zs.map (fun z => (z.2, z.2))) := by
          rw [← hzipmap]; exact sortO_of_chain entLt _ hchainD
        simp only [crystallize, hE, hzipmap, hsorted, Option.some_inj, List.map_map]
        rfl

theorem crysIdemL : ∀ xs ys, wfL xs = true → crysList xs = some ys → crysList ys = some ys
  | [], ys, _, h => by
    simp only [crysList, Option.some_inj] at h; subst h; rfl
  | x :: xs, ys, hwf, h => by
    simp only [wfL, Bool.and_eq_true] at hwf
    simp only [crysList] at h
    cases hx : crystallize x with
    | none => rw [hx] at h; simp at h
    | some y =>
      cases hxs : crysList xs with
      | none => rw [hx, hxs] at h; simp at h
      | some ys0 =>
        rw [hx, hxs] at h
        simp only [Option.some_inj] at h
        subst h
        simp [crysList, crysIdemV x y hwf.1 hx, crysIdemL xs ys0 hwf.2 hxs]

theorem crysIdemE : ∀ es ces, wfE es = true → crysEntries es = some ces →
    ∀ ce ∈ ces,
      (hashableB ce.1 = true ∧ crystallize ce.1 = some ce.1) ∧ crystallize ce.2 = some ce.2
  | [], ces, _, h => by
    simp only [crysEntries, Option.some_inj] at h
    subst h
    intro ce hce
    exact absurd hce (List.not_mem_nil ce)
  | (k, v) :: es, ces, hwf, h => by
    simp only [wfE, Bool.and_eq_true] at hwf
    simp only [crysEntries] at h
    cases hk : crystallize k with
    | none => rw [hk] at h; simp at h
    | some k2 =>
      cases hv : crystallize v with
      | none => rw [hk, hv] at h; simp at h
      | some v2 =>
        cases hes : crysEntries es with
        | none => rw [hk, hv, hes] at h; simp at h
        | some es2 =>
          rw [hk, hv, hes] at h
          simp only [Option.some_inj] at h
          subst h
          intro ce hce
          rcases List.mem_cons.mp hce with rfl | hce2
          · have hk2 : k = k2 :=
              Option.some_inj.mp ((hashable_crys k hwf.1.1).symm.trans hk)
            subst hk2
            exact ⟨⟨hwf.1.1, hashable_crys k hwf.1.1⟩, crysIdemV v v2 hwf.1.2 hv⟩
          · exact crysIdemE es es2 hwf.2 hes ce hce2

end

end Hashomatic

namespace Hashomatic

/-- C6: freeze (`crystallize`) is idempotent.  For every well-formed value
(every mapping key hashable, as Python guarantees for any constructible
dict) on which `crystallize` is defined, crystallizing the result again
succeeds and returns it unchanged — so `freeze(freeze(v))` structurally
equals `freeze(v)`. -/
theorem crystallize_idempotent (v c : Value) (hwf : wfB v = true)
    (h : crystallize v = some c) : crystallize c = some c :=
  crysIdemV v c hwf h

/-- Witness for C6 at a two-key mapping whose entries get reordered by the
canonical key sort. -/
theorem crystallize_idempotent_case :
    wfB (.vdict [(.vstr "b", .vint 1), (.vstr "a", .vint 2)]) = true
    ∧ crystallize (.vdict [(.vstr "b", .vint 1), (.vstr "a", .vint 2)])
        = some (.vdict [(.vstr "a", .vint 2), (.vstr "b", .vint 1)])
    ∧ crystallize (.vdict [(.vstr "a", .vint 2), (.vstr "b", .vint 1)])
        = some (.vdict [(.vstr "a", .vint 2), (.vstr "b", .vint 1)]) :=
  ⟨by decide, by decide,
    crystallize_idempotent (.vdict [(.vstr "b", .vint 1), (.vstr "a", .vint 2)])
      (.vdict [(.vstr "a", .vint 2), (.vstr "b", .vint 1)]) (by decide) (by decide)⟩

/-- C7 counterexample: `crystallize` sends a set through the generic
iterable branch with no digest-based sorting: the set iterated as `[2, 1]`
freezes to the tuple `(2, 1)` even though `digest(1)` strictly precedes
`digest(2)`, so the output is not sorted by element digest — and the result
depends on iteration order. -/
theorem set_freeze_not_sorted :
    crystallize (.vset [.vint 2, .vint 1]) = some (.vtuple [.vint 2, .vint 1])
    ∧ lexLt (digest (.vint 1)) (digest (.vint 2)) = true
    ∧ crystallize (.vset [.vint 1, .vint 2]) ≠ crystallize (.vset [.vint 2, .vint 1]) := by
  refine ⟨by decide, by decide, by decide⟩

/-- C7 amended: a set input takes the same branch as any other non-mapping
iterable (the unused `CrystalSet` notwithstanding): `crystallize` returns
the tuple of the crystallized elements in the set's iteration order,
exactly as for a list, with no sorting. -/
theorem set_freeze_iteration_order :
    ∀ xs : List Value,
      crystallize (.vset xs) = Option.map Value.vtuple (crysList xs)
      ∧ crystallize (.vset xs) = crystallize (.vlist xs) := by
  intro xs
  refine ⟨?_, rfl⟩
  cases h : crysList xs <;> simp [crystallize, h]

end Hashomatic
